import Mathlib

/-!
Verification of the orchestration core of the `my-bitburner` repository:
the resource allocator (`core/resource-allocator.ts`), the module registry
(`core/module-registry.ts`), network change detection
(`core/network-manager.ts`) and the port-based message utilities
(`ns-utils`).  Numbers (RAM capacities, priorities) are modelled as
rationals; JavaScript records keyed by hostname are modelled as
association lists with record update semantics (overwrite in place,
otherwise append).
-/

namespace Orchestrator

/-- A server in the resource pool (`ServerResource` in the source). -/
structure ServerResource where
  hostname : String
  totalRam : ℚ
  usedRam : ℚ
  availableRam : ℚ
  isHome : Bool
  isPurchased : Bool
deriving DecidableEq, Repr

/-- A module's resource request (`ResourceRequest` in the source). -/
structure ResourceRequest where
  moduleName : String
  priority : ℚ
  minRam : ℚ
  maxRam : ℚ
  preferredServers : Option (List String)
deriving DecidableEq, Repr

/-- An allocation produced for one module (`ResourceAllocation` in the
source).  `serverAllocations` models the JS record `Record<string, number>`
as an insertion-ordered association list. -/
structure ResourceAllocation where
  moduleName : String
  allocatedRam : ℚ
  serverAllocations : List (String × ℚ)
deriving DecidableEq, Repr

/-- JS record assignment `recs[k] = v`: overwrite the entry in place when
the key is present, otherwise append the new entry. -/
def recordSet {α : Type} (recs : List (String × α)) (k : String) (v : α) :
    List (String × α) :=
  if recs.any fun p => p.1 == k then
    recs.map fun p => if p.1 == k then (k, v) else p
  else recs ++ [(k, v)]

/-- JS record lookup `recs[k]` (first entry with the key). -/
def lookupRecord {α : Type} (recs : List (String × α)) (k : String) : Option α :=
  match recs.find? fun p => p.1 == k with
  | some p => some p.2
  | none => none

/-- Mutation `server.availableRam += d` on the first pool entry whose
hostname is `h` (the in-place update of the shared pool object;
`remainingPool.find(...)` in the rollback also targets the first match). -/
def adjustAvail : List ServerResource → String → ℚ → List ServerResource
  | [], _, _ => []
  | s :: rest, h, d =>
    if s.hostname == h then { s with availableRam := s.availableRam + d } :: rest
    else s :: adjustAvail rest h d

/-- Comparator `(a, b) => b.priority - a.priority` of `allocateResources`,
expressed as the relation `compare(a, b) <= 0`. -/
def requestLE (a b : ResourceRequest) : Bool :=
  decide (b.priority ≤ a.priority)

/-- Default pool comparator of `allocateToModule` (non-home servers first,
then available RAM descending), expressed as `compare(a, b) <= 0`. -/
def defaultLE (a b : ServerResource) : Bool :=
  if a.isHome != b.isHome then !a.isHome
  else decide (b.availableRam ≤ a.availableRam)

/-- Pool comparator of `allocateToModule` when `preferredServers` is given
(preferred servers first, then non-home first, then available RAM
descending), expressed as `compare(a, b) <= 0`. -/
def preferredLE (prefs : List String) (a b : ServerResource) : Bool :=
  let aP := prefs.contains a.hostname
  let bP := prefs.contains b.hostname
  if aP != bP then aP
  else if a.isHome != b.isHome then !a.isHome
  else decide (b.availableRam ≤ a.availableRam)

/-- The `sortedPool` computed at the start of `allocateToModule`:
a stable sort of the working pool by the applicable comparator
(JavaScript `Array.prototype.sort` is stable; insertion sort on the
`compare <= 0` relation realises exactly that stable order). -/
def sortedPoolFor (request : ResourceRequest) (remainingPool : List ServerResource) :
    List ServerResource :=
  match request.preferredServers with
  | some prefs =>
    if 0 < prefs.length then
      List.insertionSort (fun a b => preferredLE prefs a b = true) remainingPool
    else
      List.insertionSort (fun a b => defaultLE a b = true) remainingPool
  | none => List.insertionSort (fun a b => defaultLE a b = true) remainingPool

/-- The `for (const server of sortedPool)` loop of `allocateToModule`:
walks the sorted view, takes `min(needed, server.availableRam)` from each
server with positive availability until `targetRam` is reached, recording
takes in `serverAllocations` and mutating the shared working pool.
Returns (mutated pool, serverAllocations record, totalAllocated). -/
def distributeAllocation (targetRam : ℚ) :
    List ServerResource → List ServerResource → List (String × ℚ) → ℚ →
    List ServerResource × List (String × ℚ) × ℚ
  | [], pool, recs, tot => (pool, recs, tot)
  | s :: rest, pool, recs, tot =>
    if targetRam ≤ tot then (pool, recs, tot)
    else if s.availableRam ≤ 0 then distributeAllocation targetRam rest pool recs tot
    else
      let needed := targetRam - tot
      let toAllocate := min needed s.availableRam
      if 0 < toAllocate then
        distributeAllocation targetRam rest (adjustAvail pool s.hostname (-toAllocate))
          (recordSet recs s.hostname toAllocate) (tot + toAllocate)
      else distributeAllocation targetRam rest pool recs tot

/-- `allocateToModule(request, remainingPool)`: sorts the pool view, greedily
distributes up to `maxRam`, and rolls every take back (returning `null`)
when the total taken is below `minRam`.  Returns the result together with
the working pool after the call (the source mutates `remainingPool`). -/
def allocateToModule (request : ResourceRequest) (remainingPool : List ServerResource) :
    Option ResourceAllocation × List ServerResource :=
  let sortedPool := sortedPoolFor request remainingPool
  let res := distributeAllocation request.maxRam sortedPool remainingPool [] 0
  let pool1 := res.1
  let serverAllocations := res.2.1
  let totalAllocated := res.2.2
  if totalAllocated < request.minRam then
    (none, serverAllocations.foldl (fun p kv => adjustAvail p kv.1 kv.2) pool1)
  else
    (some { moduleName := request.moduleName, allocatedRam := totalAllocated,
            serverAllocations := serverAllocations }, pool1)

/-- The `for (const request of sortedRequests)` loop of `allocateResources`:
processes requests in order against the shared working pool, keeping the
non-null allocations. -/
def processRequests : List ResourceRequest → List ServerResource →
    List ResourceAllocation × List ServerResource
  | [], pool => ([], pool)
  | r :: rs, pool =>
    match allocateToModule r pool with
    | (some a, pool1) =>
      let rest := processRequests rs pool1
      (a :: rest.1, rest.2)
    | (none, pool1) => processRequests rs pool1

/-- `optimizeAllocation` (the source returns its input unchanged). -/
def optimizeAllocation (allocations : List ResourceAllocation) :
    List ResourceAllocation :=
  allocations

/-- `allocateResources(pool, requests)`: copy the pool, stable-sort the
requests by priority descending, process them in order against the shared
working copy, and return the optimized allocations. -/
def allocateResources (pool : List ServerResource) (requests : List ResourceRequest) :
    List ResourceAllocation :=
  let remainingPool := pool
  let sortedRequests := List.insertionSort (fun a b => requestLE a b = true) requests
  optimizeAllocation (processRequests sortedRequests remainingPool).1

/-- Sum of `availableRam` over the pool entries named `h`. -/
def poolAvail (pool : List ServerResource) (h : String) : ℚ :=
  ((pool.filter fun s => s.hostname == h).map ServerResource.availableRam).sum

/-- Sum of the amounts recorded for hostname `h` in a `serverAllocations`
record. -/
def recAmount (recs : List (String × ℚ)) (h : String) : ℚ :=
  ((recs.filter fun p => p.1 == h).map Prod.snd).sum

/-- Amount a single (possibly absent) allocation assigns to hostname `h`. -/
def allocAmount (res : Option ResourceAllocation) (h : String) : ℚ :=
  match res with
  | some a => recAmount a.serverAllocations h
  | none => 0

/-- Total amount assigned to hostname `h` across a list of allocations. -/
def allocListAmount (allocs : List ResourceAllocation) (h : String) : ℚ :=
  (allocs.map fun a => recAmount a.serverAllocations h).sum

/-- Total available RAM of a pool. -/
def totalAvail (pool : List ServerResource) : ℚ :=
  (pool.map ServerResource.availableRam).sum

/-- Total positive available RAM of a pool (what the greedy loop can
actually take). -/
def posAvail (pool : List ServerResource) : ℚ :=
  (pool.map fun s => max 0 s.availableRam).sum

/-- Well-formed pool: hostnames are distinct (unique node ids, as
`buildResourcePool` guarantees through its visited set) and available
capacities are non-negative. -/
def WellFormedPool (pool : List ServerResource) : Prop :=
  (pool.map ServerResource.hostname).Nodup ∧ ∀ s ∈ pool, 0 ≤ s.availableRam

/-- The node ordering described by the spec's words for the preferred case:
all preferred nodes first, each group keeping its relative pool order.
Kept separate from the source translation so the two can be compared. -/
def specPreferredOrdering (prefs : List String) (pool : List ServerResource) :
    List ServerResource :=
  (pool.filter fun s => prefs.contains s.hostname) ++
    (pool.filter fun s => !(prefs.contains s.hostname))

/-! ### Module registry (`core/module-registry.ts`) -/

/-- Lifecycle states of a registered module. -/
inductive ModuleLifecycleState where
  | stopped
  | starting
  | running
  | paused
  | error
deriving DecidableEq, Repr

/-- The `ramAllocation` sub-record of a registered module. -/
structure RamAllocation where
  requested : ℚ
  allocated : ℚ
  actual : ℚ
deriving DecidableEq, Repr

/-- The part of the opaque module `config` object the registry reads
(`config.minRamRequired`, absent modelled as `none`). -/
structure ModuleConfig where
  minRamRequired : Option ℚ
deriving DecidableEq, Repr

/-- A registry record (`RegisteredModule` in the source). -/
structure RegisteredModule where
  name : String
  scriptPath : String
  config : ModuleConfig
  priority : ℚ
  status : ModuleLifecycleState
  pid : Option ℕ
  controlPort : ℕ
  statusPort : ℕ
  lastStatusUpdate : ℕ
  ramAllocation : RamAllocation
deriving DecidableEq, Repr

/-- The registry (`ModuleRegistry` in the source): the `modules` record as
an insertion-ordered association list plus the `lastUpdate` stamp written
by `saveRegistry`. -/
structure ModuleRegistry where
  modules : List (String × RegisteredModule)
  lastUpdate : ℕ
deriving DecidableEq, Repr

/-- The record literal built inside `registerModule`. -/
def mkRegisteredModule (name scriptPath : String) (config : ModuleConfig)
    (priority : ℚ) (controlPort statusPort now : ℕ) : RegisteredModule :=
  { name := name
    scriptPath := scriptPath
    config := config
    priority := priority
    status := ModuleLifecycleState.stopped
    pid := none
    controlPort := controlPort
    statusPort := statusPort
    lastStatusUpdate := now
    ramAllocation :=
      { requested := config.minRamRequired.getD 0, allocated := 0, actual := 0 } }

/-- `registerModule`: build a fresh record and store it under the module's
name (`registry.modules[name] = module`), then save.  `now` stands for
`Date.now()`. -/
def registerModule (registry : ModuleRegistry) (name scriptPath : String)
    (config : ModuleConfig) (priority : ℚ) (controlPort statusPort now : ℕ) :
    ModuleRegistry :=
  { modules := recordSet registry.modules name
      (mkRegisteredModule name scriptPath config priority controlPort statusPort now)
    lastUpdate := now }

/-- `unregisterModule`: delete the record when present; when absent the
function returns false without saving, leaving the registry unchanged. -/
def unregisterModule (registry : ModuleRegistry) (name : String) (now : ℕ) :
    ModuleRegistry :=
  if registry.modules.any fun p => p.1 == name then
    { modules := registry.modules.filter fun p => !(p.1 == name), lastUpdate := now }
  else registry

/-- Shared shape of the partial-field update operations: when the module is
registered, rewrite its record with `f` and stamp `lastStatusUpdate`;
otherwise return false without saving. -/
def updateRegistered (registry : ModuleRegistry) (name : String) (now : ℕ)
    (f : RegisteredModule → RegisteredModule) : ModuleRegistry :=
  if registry.modules.any fun p => p.1 == name then
    { modules := registry.modules.map fun p =>
        if p.1 == name then (p.1, { f p.2 with lastStatusUpdate := now }) else p
      lastUpdate := now }
  else registry

/-- `updateModuleStatus`. -/
def updateModuleStatus (registry : ModuleRegistry) (name : String)
    (status : ModuleLifecycleState) (now : ℕ) : ModuleRegistry :=
  updateRegistered registry name now fun m => { m with status := status }

/-- `updateModulePID`. -/
def updateModulePID (registry : ModuleRegistry) (name : String)
    (pid : Option ℕ) (now : ℕ) : ModuleRegistry :=
  updateRegistered registry name now fun m => { m with pid := pid }

/-- `updateModuleAllocation` (only the provided fields change). -/
def updateModuleAllocation (registry : ModuleRegistry) (name : String)
    (requested allocated actual : Option ℚ) (now : ℕ) : ModuleRegistry :=
  updateRegistered registry name now fun m =>
    { m with ramAllocation :=
        { requested := requested.getD m.ramAllocation.requested
          allocated := allocated.getD m.ramAllocation.allocated
          actual := actual.getD m.ramAllocation.actual } }

/-- `updateModulePorts`. -/
def updateModulePorts (registry : ModuleRegistry) (name : String)
    (controlPort statusPort now : ℕ) : ModuleRegistry :=
  updateRegistered registry name now fun m =>
    { m with controlPort := controlPort, statusPort := statusPort }

/-- `clearRegistry`. -/
def clearRegistry (now : ℕ) : ModuleRegistry :=
  { modules := [], lastUpdate := now }

/-- The registry-mutating operations of the public API. -/
inductive RegistryOp where
  | register (name scriptPath : String) (config : ModuleConfig) (priority : ℚ)
      (controlPort statusPort now : ℕ)
  | unregister (name : String) (now : ℕ)
  | setStatus (name : String) (status : ModuleLifecycleState) (now : ℕ)
  | setPID (name : String) (pid : Option ℕ) (now : ℕ)
  | setAllocation (name : String) (requested allocated actual : Option ℚ) (now : ℕ)
  | setPorts (name : String) (controlPort statusPort now : ℕ)
  | clear (now : ℕ)

/-- Apply one registry operation. -/
def applyOp (registry : ModuleRegistry) : RegistryOp → ModuleRegistry
  | RegistryOp.register name scriptPath config priority controlPort statusPort now =>
      registerModule registry name scriptPath config priority controlPort statusPort now
  | RegistryOp.unregister name now => unregisterModule registry name now
  | RegistryOp.setStatus name status now => updateModuleStatus registry name status now
  | RegistryOp.setPID name pid now => updateModulePID registry name pid now
  | RegistryOp.setAllocation name requested allocated actual now =>
      updateModuleAllocation registry name requested allocated actual now
  | RegistryOp.setPorts name controlPort statusPort now =>
      updateModulePorts registry name controlPort statusPort now
  | RegistryOp.clear now => clearRegistry now

/-- Apply a sequence of registry operations in order. -/
def applyOps (registry : ModuleRegistry) : List RegistryOp → ModuleRegistry
  | [] => registry
  | op :: ops => applyOps (applyOp registry op) ops

/-- Keys of the registry's `modules` record. -/
def registryKeys (registry : ModuleRegistry) : List String :=
  registry.modules.map Prod.fst

/-! ### Network change detection (`core/network-manager.ts`) -/

/-- Persisted network snapshot (`NetworkState` in the source). -/
structure NetworkState where
  allServers : List String
  rootedServers : List String
  hackableServers : List String
  purchasedServers : List String
  totalRamAvailable : ℚ
  lastScan : ℕ
deriving DecidableEq, Repr

/-- Change set between two scans (`NetworkChanges` in the source). -/
structure NetworkChanges where
  newServers : List String
  newlyRooted : List String
  newlyPurchased : List String
  leveledUp : Bool
  totalChanges : ℕ
deriving DecidableEq, Repr

/-- The game world as `detectNetworkChanges` observes it through `ns`:
`servers` is what `scanEntireNetwork` returns, `hasRoot` is
`ns.hasRootAccess`, `isPurchased` is `server.purchasedByPlayer`, and
`hackable` is what `getHackableServers` returns. -/
structure NetEnv where
  servers : List String
  hasRoot : String → Bool
  isPurchased : String → Bool
  hackable : List String

/-- `detectNetworkChanges(ns, oldState)`: with no previous snapshot every
current (and currently rooted / purchased) server is new; otherwise the
change set is computed by filtering the current scan against the previous
snapshot's lists. -/
def detectNetworkChanges (env : NetEnv) (oldState : Option NetworkState) :
    NetworkChanges :=
  let currentServers := env.servers
  let currentRooted := currentServers.filter env.hasRoot
  let currentPurchased := currentServers.filter env.isPurchased
  match oldState with
  | none =>
    { newServers := currentServers
      newlyRooted := currentRooted
      newlyPurchased := currentPurchased
      leveledUp := false
      totalChanges := currentServers.length }
  | some old =>
    let newServers := currentServers.filter fun h => !(old.allServers.contains h)
    let newlyRooted := currentRooted.filter fun h => !(old.rootedServers.contains h)
    let newlyPurchased :=
      currentPurchased.filter fun h => !(old.purchasedServers.contains h)
    let leveledUp := decide (old.hackableServers.length < env.hackable.length)
    { newServers := newServers
      newlyRooted := newlyRooted
      newlyPurchased := newlyPurchased
      leveledUp := leveledUp
      totalChanges := newServers.length + newlyRooted.length +
        newlyPurchased.length + (if leveledUp then 1 else 0) }

/-! ### Port-based messaging (`ns-utils`) -/

/-- A serialized port message (`{ timestamp, data }` in `sendMessage`). -/
structure PortMessage where
  timestamp : ℕ
  data : String
deriving DecidableEq, Repr

/-- A numbered game port: a bounded FIFO of serialized messages. -/
structure Port where
  capacity : ℕ
  queue : List PortMessage
deriving DecidableEq, Repr

/-- `portHandle.full()`. -/
def portFull (p : Port) : Bool :=
  decide (p.capacity ≤ p.queue.length)

/-- `portHandle.clear()`. -/
def portClear (p : Port) : Port :=
  { p with queue := [] }

/-- `portHandle.write(msg)`: append; when over capacity the oldest entry is
evicted (the game returns it to the caller, which `sendMessage` ignores). -/
def portWrite (p : Port) (msg : PortMessage) : Port :=
  let q := p.queue ++ [msg]
  { p with queue := if p.capacity < q.length then q.tail else q }

/-- `portHandle.empty()`. -/
def portEmpty (p : Port) : Bool :=
  p.queue.isEmpty

/-- `sendMessage(ns, port, message)`: wrap the payload with a timestamp,
clear the channel when it is full, then write. -/
def sendMessage (p : Port) (now : ℕ) (message : String) : Port :=
  let messageData : PortMessage := { timestamp := now, data := message }
  let p1 := if portFull p then portClear p else p
  portWrite p1 messageData

/-- `receiveMessage(ns, port)`: non-blocking read of the oldest pending
message's payload. -/
def receiveMessage (p : Port) : Option String × Port :=
  if portEmpty p then (none, p)
  else
    match p.queue with
    | [] => (none, p)
    | m :: rest => (some m.data, { p with queue := rest })

/-- `hasMessages(ns, port)`. -/
def hasMessages (p : Port) : Bool :=
  !(portEmpty p)

/-! ### Helper lemmas -/

theorem lookupRecord_recordSet {α : Type} (recs : List (String × α)) (k : String) (v : α) :
    lookupRecord (recordSet recs k v) k = some v := by
  unfold recordSet lookupRecord
  by_cases hmem : recs.any (fun p => p.1 == k) = true
  · rw [if_pos hmem, List.find?_map]
    have hcomp : ((fun p : String × α => p.1 == k) ∘
        fun p : String × α => if p.1 == k then (k, v) else p) =
        fun p : String × α => p.1 == k := by
      funext p
      by_cases hp : p.1 = k
      · simp [hp]
      · simp [hp]
    rw [hcomp]
    obtain ⟨p, hp, hpk⟩ := List.any_eq_true.mp hmem
    have hiss : (recs.find? fun p => p.1 == k).isSome :=
      List.find?_isSome.mpr ⟨p, hp, hpk⟩
    obtain ⟨q, hq⟩ := Option.isSome_iff_exists.mp hiss
    have hqk := List.find?_some hq
    rw [hq]
    simp only [Option.map_some']
    simp at hqk
    simp [hqk]
  · rw [if_neg hmem, List.find?_append]
    have hnone : recs.find? (fun p => p.1 == k) = none := by
      rw [List.find?_eq_none]
      intro p hp hpk
      exact hmem (List.any_eq_true.mpr ⟨p, hp, hpk⟩)
    simp [hnone]

theorem poolAvail_cons (s : ServerResource) (rest : List ServerResource) (h : String) :
    poolAvail (s :: rest) h =
      (if s.hostname == h then s.availableRam else 0) + poolAvail rest h := by
  unfold poolAvail
  cases hs : s.hostname == h
  · simp [List.filter_cons, hs]
  · simp [List.filter_cons, hs]

theorem recAmount_cons (p : String × ℚ) (rest : List (String × ℚ)) (h : String) :
    recAmount (p :: rest) h = (if p.1 == h then p.2 else 0) + recAmount rest h := by
  unfold recAmount
  cases hs : p.1 == h
  · simp [List.filter_cons, hs]
  · simp [List.filter_cons, hs]

theorem recAmount_append_single (recs : List (String × ℚ)) (k : String) (v : ℚ)
    (h : String) :
    recAmount (recs ++ [(k, v)]) h = recAmount recs h + (if h = k then v else 0) := by
  unfold recAmount
  rw [List.filter_append, List.map_append, List.sum_append]
  congr 1
  cases hs : k == h
  · have hne : ¬h = k := fun e => (by simpa using hs : k ≠ h) e.symm
    simp [List.filter_cons, hs, hne]
  · have he : k = h := by simpa using hs
    subst he
    simp [List.filter_cons]

theorem adjustAvail_map_hostname (pool : List ServerResource) (h : String) (d : ℚ) :
    (adjustAvail pool h d).map ServerResource.hostname =
      pool.map ServerResource.hostname := by
  induction pool with
  | nil => rfl
  | cons s rest ih =>
    unfold adjustAvail
    cases hs : s.hostname == h
    · simp [hs, ih]
    · simp [hs]

theorem poolAvail_adjustAvail_ne (pool : List ServerResource) {h h' : String} (d : ℚ)
    (hne : h' ≠ h) :
    poolAvail (adjustAvail pool h d) h' = poolAvail pool h' := by
  induction pool with
  | nil => rfl
  | cons s rest ih =>
    unfold adjustAvail
    cases hs : s.hostname == h
    · simp only [Bool.false_eq_true, if_false]  -- not-matching head
      rw [poolAvail_cons, poolAvail_cons, ih]
    · have hs' : s.hostname = h := by simpa using hs
      simp only [if_true]
      rw [poolAvail_cons, poolAvail_cons]
      have hcond : (s.hostname == h') = false := by
        simp [hs']
        exact fun e => hne e.symm
      rw [hcond]
      simp

theorem poolAvail_adjustAvail_mem (pool : List ServerResource) {h : String} (d : ℚ)
    (hmem : h ∈ pool.map ServerResource.hostname) :
    poolAvail (adjustAvail pool h d) h = poolAvail pool h + d := by
  induction pool with
  | nil => simp at hmem
  | cons s rest ih =>
    unfold adjustAvail
    cases hs : s.hostname == h
    · have hs' : s.hostname ≠ h := by simpa using hs
      have hmem' : h ∈ rest.map ServerResource.hostname := by
        rcases List.mem_map.mp hmem with ⟨t, ht, hth⟩
        rcases List.mem_cons.mp ht with he | hm
        · exact absurd (he ▸ hth) hs'
        · exact List.mem_map.mpr ⟨t, hm, hth⟩
      simp only [Bool.false_eq_true, if_false]
      rw [poolAvail_cons, poolAvail_cons, ih hmem']
      ring
    · simp only [if_true]
      rw [poolAvail_cons, poolAvail_cons]
      have hcond2 :
          (({ s with availableRam := s.availableRam + d } : ServerResource).hostname == h) =
            (s.hostname == h) := rfl
      rw [hcond2, hs]
      simp only [if_true]
      ring

theorem recordSet_not_mem (recs : List (String × ℚ)) (k : String) (v : ℚ)
    (hk : ∀ p ∈ recs, p.1 ≠ k) :
    recordSet recs k v = recs ++ [(k, v)] := by
  unfold recordSet
  rw [if_neg]
  intro hc
  obtain ⟨p, hp, hpk⟩ := List.any_eq_true.mp hc
  exact hk p hp (by simpa using hpk)

theorem poolAvail_nonneg (pool : List ServerResource)
    (hn : ∀ s ∈ pool, 0 ≤ s.availableRam) (h : String) : 0 ≤ poolAvail pool h := by
  induction pool with
  | nil => simp [poolAvail]
  | cons s rest ih =>
    rw [poolAvail_cons]
    have h1 : 0 ≤ s.availableRam := hn s (by simp)
    have h2 : 0 ≤ poolAvail rest h := ih fun t ht => hn t (by simp [ht])
    have h3 : (0:ℚ) ≤ if s.hostname == h then s.availableRam else 0 := by
      split <;> simp [h1]
    linarith

theorem poolAvail_not_mem (pool : List ServerResource) (h : String)
    (hnm : h ∉ pool.map ServerResource.hostname) : poolAvail pool h = 0 := by
  induction pool with
  | nil => simp [poolAvail]
  | cons s rest ih =>
    rw [poolAvail_cons]
    have h1 : s.hostname ≠ h := fun e => hnm (by simp [e])
    have h2 : h ∉ rest.map ServerResource.hostname := fun hm => hnm (by simp [hm])
    have hcond : (s.hostname == h) = false := by simpa using h1
    rw [hcond, ih h2]
    simp

theorem poolAvail_of_nodup (pool : List ServerResource)
    (hnd : (pool.map ServerResource.hostname).Nodup) {s : ServerResource}
    (hs : s ∈ pool) : poolAvail pool s.hostname = s.availableRam := by
  induction pool with
  | nil => simp at hs
  | cons t rest ih =>
    rw [List.map_cons, List.nodup_cons] at hnd
    obtain ⟨hnotin, hnd2⟩ := hnd
    rw [poolAvail_cons]
    rcases List.mem_cons.mp hs with he | hm
    · have hninS : s.hostname ∉ rest.map ServerResource.hostname := by
        rw [he]; exact hnotin
      rw [poolAvail_not_mem rest s.hostname hninS]
      have hcond : (t.hostname == s.hostname) = true := by simp [he]
      rw [hcond, he]
      simp
    · have hne : t.hostname ≠ s.hostname := by
        intro e
        exact hnotin (by rw [e]; exact List.mem_map.mpr ⟨s, hm, rfl⟩)
      have hcond : (t.hostname == s.hostname) = false := by simpa using hne
      rw [hcond, ih hnd2 hm]
      simp

theorem nonneg_entries_of_poolAvail (pool : List ServerResource)
    (hnd : (pool.map ServerResource.hostname).Nodup)
    (h : ∀ h, 0 ≤ poolAvail pool h) : ∀ s ∈ pool, 0 ≤ s.availableRam := by
  intro s hs
  rw [← poolAvail_of_nodup pool hnd hs]
  exact h s.hostname

theorem distributeAllocation_nil (target : ℚ) (pool : List ServerResource)
    (recs : List (String × ℚ)) (tot : ℚ) :
    distributeAllocation target [] pool recs tot = (pool, recs, tot) := rfl

theorem distributeAllocation_cons (target : ℚ) (s : ServerResource)
    (rest pool : List ServerResource) (recs : List (String × ℚ)) (tot : ℚ) :
    distributeAllocation target (s :: rest) pool recs tot =
      if target ≤ tot then (pool, recs, tot)
      else if s.availableRam ≤ 0 then distributeAllocation target rest pool recs tot
      else if 0 < min (target - tot) s.availableRam then
        distributeAllocation target rest
          (adjustAvail pool s.hostname (-(min (target - tot) s.availableRam)))
          (recordSet recs s.hostname (min (target - tot) s.availableRam))
          (tot + min (target - tot) s.availableRam)
      else distributeAllocation target rest pool recs tot := rfl

theorem allocateToModule_eq (request : ResourceRequest) (pool : List ServerResource) :
    allocateToModule request pool =
      if (distributeAllocation request.maxRam (sortedPoolFor request pool) pool [] 0).2.2 <
          request.minRam then
        (none,
          (distributeAllocation request.maxRam (sortedPoolFor request pool) pool [] 0).2.1.foldl
            (fun p kv => adjustAvail p kv.1 kv.2)
            (distributeAllocation request.maxRam (sortedPoolFor request pool) pool [] 0).1)
      else
        (some { moduleName := request.moduleName,
                allocatedRam :=
                  (distributeAllocation request.maxRam (sortedPoolFor request pool) pool [] 0).2.2,
                serverAllocations :=
                  (distributeAllocation request.maxRam (sortedPoolFor request pool) pool [] 0).2.1 },
          (distributeAllocation request.maxRam (sortedPoolFor request pool) pool [] 0).1) := rfl

/-- The greedy take never pushes the running total past the target. -/
theorem distribute_le_target (target : ℚ) (sorted : List ServerResource) :
    ∀ (pool : List ServerResource) (recs : List (String × ℚ)) (tot : ℚ), tot ≤ target →
      (distributeAllocation target sorted pool recs tot).2.2 ≤ target := by
  induction sorted with
  | nil => intro pool recs tot htot; simpa [distributeAllocation_nil] using htot
  | cons s rest ih =>
    intro pool recs tot htot
    rw [distributeAllocation_cons]
    by_cases h1 : target ≤ tot
    · rw [if_pos h1]; exact htot
    · rw [if_neg h1]
      by_cases h2 : s.availableRam ≤ 0
      · rw [if_pos h2]; exact ih pool recs tot htot
      · rw [if_neg h2]
        by_cases h3 : 0 < min (target - tot) s.availableRam
        · rw [if_pos h3]
          refine ih _ _ _ ?_
          have := min_le_left (target - tot) s.availableRam
          linarith
        · rw [if_neg h3]; exact ih pool recs tot htot

/-- With a non-positive target the greedy take from a zero start takes
nothing. -/
theorem distribute_target_nonpos (target : ℚ) (sorted pool : List ServerResource)
    (recs : List (String × ℚ)) (htarget : target ≤ 0) :
    (distributeAllocation target sorted pool recs 0).2.2 = 0 := by
  cases sorted with
  | nil => rfl
  | cons s rest => rw [distributeAllocation_cons, if_pos htarget]

/-- Master invariant of the greedy take loop: the working pool keeps its
hostnames, the total of pool availability plus recorded takes is conserved
per hostname, availability stays non-negative, and every recorded key
originates from the sorted view. -/
theorem distribute_invariant (target : ℚ) (sorted : List ServerResource) :
    ∀ (pool : List ServerResource) (recs : List (String × ℚ)) (tot : ℚ),
      (∀ s ∈ sorted, s.hostname ∈ pool.map ServerResource.hostname ∧
          poolAvail pool s.hostname = s.availableRam) →
      (sorted.map ServerResource.hostname).Nodup →
      (∀ p ∈ recs, ∀ s ∈ sorted, p.1 ≠ s.hostname) →
      (∀ h, 0 ≤ poolAvail pool h) →
      ((distributeAllocation target sorted pool recs tot).1.map ServerResource.hostname =
          pool.map ServerResource.hostname) ∧
      (∀ h, poolAvail (distributeAllocation target sorted pool recs tot).1 h +
          recAmount (distributeAllocation target sorted pool recs tot).2.1 h =
          poolAvail pool h + recAmount recs h) ∧
      (∀ h, 0 ≤ poolAvail (distributeAllocation target sorted pool recs tot).1 h) ∧
      (∀ p ∈ (distributeAllocation target sorted pool recs tot).2.1,
          p ∈ recs ∨ ∃ s ∈ sorted, p.1 = s.hostname) := by
  induction sorted with
  | nil =>
    intro pool recs tot _ _ _ H4
    rw [distributeAllocation_nil]
    exact ⟨rfl, fun h => rfl, H4, fun p hp => Or.inl hp⟩
  | cons s rest ih =>
    intro pool recs tot H1 H2 H3 H4
    rw [distributeAllocation_cons]
    by_cases h1 : target ≤ tot
    · rw [if_pos h1]
      exact ⟨rfl, fun h => rfl, H4, fun p hp => Or.inl hp⟩
    rw [if_neg h1]
    have H1r : ∀ t ∈ rest, t.hostname ∈ pool.map ServerResource.hostname ∧
        poolAvail pool t.hostname = t.availableRam :=
      fun t ht => H1 t (List.mem_cons_of_mem s ht)
    have H2r : (rest.map ServerResource.hostname).Nodup := by
      rw [List.map_cons, List.nodup_cons] at H2
      exact H2.2
    have hsnotin : s.hostname ∉ rest.map ServerResource.hostname := by
      rw [List.map_cons, List.nodup_cons] at H2
      exact H2.1
    have H3r : ∀ p ∈ recs, ∀ t ∈ rest, p.1 ≠ t.hostname :=
      fun p hp t ht => H3 p hp t (List.mem_cons_of_mem s ht)
    by_cases h2 : s.availableRam ≤ 0
    · rw [if_pos h2]
      obtain ⟨K, C, N, O⟩ := ih pool recs tot H1r H2r H3r H4
      exact ⟨K, C, N, fun p hp => (O p hp).imp id
        fun ⟨t, ht, he⟩ => ⟨t, List.mem_cons_of_mem s ht, he⟩⟩
    rw [if_neg h2]
    by_cases h3 : 0 < min (target - tot) s.availableRam
    swap
    · rw [if_neg h3]
      obtain ⟨K, C, N, O⟩ := ih pool recs tot H1r H2r H3r H4
      exact ⟨K, C, N, fun p hp => (O p hp).imp id
        fun ⟨t, ht, he⟩ => ⟨t, List.mem_cons_of_mem s ht, he⟩⟩
    rw [if_pos h3]
    obtain ⟨hmem, havail⟩ := H1 s (List.mem_cons_self s rest)
    have hfresh : ∀ p ∈ recs, p.1 ≠ s.hostname :=
      fun p hp => H3 p hp s (List.mem_cons_self s rest)
    have hrs : recordSet recs s.hostname (min (target - tot) s.availableRam) =
        recs ++ [(s.hostname, min (target - tot) s.availableRam)] :=
      recordSet_not_mem _ _ _ hfresh
    have hkeys2 : (adjustAvail pool s.hostname
        (-(min (target - tot) s.availableRam))).map ServerResource.hostname =
        pool.map ServerResource.hostname :=
      adjustAvail_map_hostname pool s.hostname _
    have hPAat : poolAvail (adjustAvail pool s.hostname
        (-(min (target - tot) s.availableRam))) s.hostname =
        poolAvail pool s.hostname + -(min (target - tot) s.availableRam) :=
      poolAvail_adjustAvail_mem pool _ hmem
    have hPAne : ∀ h', h' ≠ s.hostname →
        poolAvail (adjustAvail pool s.hostname
          (-(min (target - tot) s.availableRam))) h' = poolAvail pool h' :=
      fun h' hne => poolAvail_adjustAvail_ne pool _ hne
    have H1n : ∀ t ∈ rest, t.hostname ∈ (adjustAvail pool s.hostname
        (-(min (target - tot) s.availableRam))).map ServerResource.hostname ∧
        poolAvail (adjustAvail pool s.hostname
          (-(min (target - tot) s.availableRam))) t.hostname = t.availableRam := by
      intro t ht
      have htne : t.hostname ≠ s.hostname := by
        intro e
        exact hsnotin (by rw [← e]; exact List.mem_map.mpr ⟨t, ht, rfl⟩)
      refine ⟨?_, ?_⟩
      · rw [hkeys2]; exact (H1r t ht).1
      · rw [hPAne t.hostname htne]; exact (H1r t ht).2
    have H3n : ∀ p ∈ recs ++ [(s.hostname, min (target - tot) s.availableRam)],
        ∀ t ∈ rest, p.1 ≠ t.hostname := by
      intro p hp t ht
      rcases List.mem_append.mp hp with hin | hone
      · exact H3r p hin t ht
      · have hpe : p = (s.hostname, min (target - tot) s.availableRam) := by
          simpa using hone
        rw [hpe]
        intro e
        have e2 : s.hostname = t.hostname := e
        exact hsnotin (by rw [e2]; exact List.mem_map.mpr ⟨t, ht, rfl⟩)

    have H4n : ∀ h, 0 ≤ poolAvail (adjustAvail pool s.hostname
        (-(min (target - tot) s.availableRam))) h := by
      intro h
      by_cases hh : h = s.hostname
      · rw [hh, hPAat, havail]
        have := min_le_right (target - tot) s.availableRam
        linarith
      · rw [hPAne h hh]; exact H4 h
    rw [hrs]
    obtain ⟨K, C, N, O⟩ := ih _ _ (tot + min (target - tot) s.availableRam) H1n H2r H3n H4n
    refine ⟨K.trans hkeys2, ?_, N, ?_⟩
    · intro h
      rw [C h, recAmount_append_single]
      by_cases hh : h = s.hostname
      · rw [hh, hPAat, if_pos rfl]
        ring
      · rw [hPAne h hh, if_neg hh]
        ring
    · intro p hp
      rcases O p hp with hin | ⟨t, ht, he⟩
      · rcases List.mem_append.mp hin with hold | hone
        · exact Or.inl hold
        · refine Or.inr ⟨s, List.mem_cons_self s rest, ?_⟩
          have hpe : p = (s.hostname, min (target - tot) s.availableRam) := by
            simpa using hone
          rw [hpe]
      · exact Or.inr ⟨t, List.mem_cons_of_mem s ht, he⟩

theorem recAmount_nil (h : String) : recAmount [] h = 0 := rfl

theorem allocListAmount_nil (h : String) : allocListAmount [] h = 0 := rfl

theorem allocListAmount_cons (a : ResourceAllocation) (allocs : List ResourceAllocation)
    (h : String) :
    allocListAmount (a :: allocs) h =
      recAmount a.serverAllocations h + allocListAmount allocs h := by
  simp [allocListAmount]

theorem foldl_adjustAvail_map_hostname (recs : List (String × ℚ)) :
    ∀ pool : List ServerResource,
      ((recs.foldl (fun p kv => adjustAvail p kv.1 kv.2) pool).map
          ServerResource.hostname) = pool.map ServerResource.hostname := by
  induction recs with
  | nil => intro pool; rfl
  | cons kv rest ih =>
    intro pool
    rw [List.foldl_cons, ih, adjustAvail_map_hostname]

theorem poolAvail_foldl_adjustAvail (recs : List (String × ℚ)) :
    ∀ pool : List ServerResource,
      (∀ p ∈ recs, p.1 ∈ pool.map ServerResource.hostname) → ∀ h,
      poolAvail (recs.foldl (fun p kv => adjustAvail p kv.1 kv.2) pool) h =
        poolAvail pool h + recAmount recs h := by
  induction recs with
  | nil => intro pool _ h; simp [recAmount]
  | cons kv rest ih =>
    intro pool hmem h
    rw [List.foldl_cons]
    have hkvmem : kv.1 ∈ pool.map ServerResource.hostname :=
      hmem kv (List.mem_cons_self kv rest)
    have hrest : ∀ p ∈ rest,
        p.1 ∈ (adjustAvail pool kv.1 kv.2).map ServerResource.hostname := by
      intro p hp
      rw [adjustAvail_map_hostname]
      exact hmem p (List.mem_cons_of_mem kv hp)
    rw [ih _ hrest h, recAmount_cons]
    by_cases hh : h = kv.1
    · subst hh
      rw [poolAvail_adjustAvail_mem pool _ hkvmem]
      have hcond : (kv.1 == kv.1) = true := by simp
      rw [hcond]
      simp only [if_true]
      ring
    · rw [poolAvail_adjustAvail_ne pool _ hh]
      have hcond : (kv.1 == h) = false := by
        simp
        exact fun e => hh e.symm
      rw [hcond]
      simp only [Bool.false_eq_true, if_false]
      ring

theorem sortedPoolFor_perm (request : ResourceRequest) (pool : List ServerResource) :
    (sortedPoolFor request pool).Perm pool := by
  cases hps : request.preferredServers with
  | none =>
    simp only [sortedPoolFor, hps]
    exact List.perm_insertionSort _ _
  | some prefs =>
    simp only [sortedPoolFor, hps]
    by_cases hl : 0 < prefs.length
    · rw [if_pos hl]; exact List.perm_insertionSort _ _
    · rw [if_neg hl]; exact List.perm_insertionSort _ _

/-- One `allocateToModule` call preserves the working pool's hostnames and
well-formedness, and per hostname the available capacity drops by exactly
the amount the returned allocation records (and is unchanged on rollback). -/
theorem allocateToModule_wf (request : ResourceRequest) (pool : List ServerResource)
    (hwf : WellFormedPool pool) :
    ((allocateToModule request pool).2.map ServerResource.hostname =
        pool.map ServerResource.hostname) ∧
    WellFormedPool (allocateToModule request pool).2 ∧
    (∀ h, poolAvail (allocateToModule request pool).2 h +
        allocAmount (allocateToModule request pool).1 h = poolAvail pool h) := by
  obtain ⟨hnd, hnn⟩ := hwf
  have hperm := sortedPoolFor_perm request pool
  have H1 : ∀ s ∈ sortedPoolFor request pool,
      s.hostname ∈ pool.map ServerResource.hostname ∧
      poolAvail pool s.hostname = s.availableRam := by
    intro s hs
    have hsp : s ∈ pool := hperm.subset hs
    exact ⟨List.mem_map.mpr ⟨s, hsp, rfl⟩, poolAvail_of_nodup pool hnd hsp⟩
  have H2 : ((sortedPoolFor request pool).map ServerResource.hostname).Nodup :=
    ((hperm.map ServerResource.hostname).nodup_iff).mpr hnd
  have H4 : ∀ h, 0 ≤ poolAvail pool h := poolAvail_nonneg pool hnn
  obtain ⟨K, C, N, O⟩ := distribute_invariant request.maxRam (sortedPoolFor request pool)
    pool [] 0 H1 H2 (by simp) H4
  have hC0 : ∀ h,
      poolAvail (distributeAllocation request.maxRam (sortedPoolFor request pool)
          pool [] 0).1 h +
        recAmount (distributeAllocation request.maxRam (sortedPoolFor request pool)
          pool [] 0).2.1 h = poolAvail pool h := by
    intro h
    have := C h
    rwa [recAmount_nil, add_zero] at this
  by_cases hm :
      (distributeAllocation request.maxRam (sortedPoolFor request pool) pool [] 0).2.2 <
        request.minRam
  · have hsplit : allocateToModule request pool =
        (none,
          (distributeAllocation request.maxRam (sortedPoolFor request pool)
            pool [] 0).2.1.foldl (fun p kv => adjustAvail p kv.1 kv.2)
            (distributeAllocation request.maxRam (sortedPoolFor request pool)
              pool [] 0).1) := by
      rw [allocateToModule_eq, if_pos hm]
    rw [hsplit]
    have hmemrec : ∀ p ∈ (distributeAllocation request.maxRam
        (sortedPoolFor request pool) pool [] 0).2.1,
        p.1 ∈ ((distributeAllocation request.maxRam (sortedPoolFor request pool)
          pool [] 0).1).map ServerResource.hostname := by
      intro p hp
      rcases O p hp with h0 | ⟨t, ht, he⟩
      · simp at h0
      · rw [K]
        exact he ▸ (H1 t ht).1
    have hPA : ∀ h, poolAvail ((distributeAllocation request.maxRam
        (sortedPoolFor request pool) pool [] 0).2.1.foldl
          (fun p kv => adjustAvail p kv.1 kv.2)
          (distributeAllocation request.maxRam (sortedPoolFor request pool)
            pool [] 0).1) h = poolAvail pool h := by
      intro h
      rw [poolAvail_foldl_adjustAvail _ _ hmemrec h]
      exact hC0 h
    have hK2 : (((distributeAllocation request.maxRam (sortedPoolFor request pool)
        pool [] 0).2.1.foldl (fun p kv => adjustAvail p kv.1 kv.2)
          (distributeAllocation request.maxRam (sortedPoolFor request pool)
            pool [] 0).1).map ServerResource.hostname) =
        pool.map ServerResource.hostname := by
      rw [foldl_adjustAvail_map_hostname, K]
    refine ⟨hK2, ⟨by rw [hK2]; exact hnd, ?_⟩, ?_⟩
    · apply nonneg_entries_of_poolAvail
      · rw [hK2]; exact hnd
      · intro h
        rw [hPA h]
        exact H4 h
    · intro h
      show poolAvail _ h + 0 = poolAvail pool h
      rw [add_zero]
      exact hPA h
  · have hsplit : allocateToModule request pool =
        (some { moduleName := request.moduleName,
                allocatedRam := (distributeAllocation request.maxRam
                  (sortedPoolFor request pool) pool [] 0).2.2,
                serverAllocations := (distributeAllocation request.maxRam
                  (sortedPoolFor request pool) pool [] 0).2.1 },
          (distributeAllocation request.maxRam (sortedPoolFor request pool)
            pool [] 0).1) := by
      rw [allocateToModule_eq, if_neg hm]
    rw [hsplit]
    refine ⟨K, ⟨by rw [K]; exact hnd, ?_⟩, ?_⟩
    · exact nonneg_entries_of_poolAvail _ (by rw [K]; exact hnd) N
    · intro h
      show poolAvail _ h + recAmount _ h = poolAvail pool h
      exact hC0 h

/-- Processing a request list against the shared working pool preserves
well-formedness and, per hostname, exactly accounts every granted amount
against the pool's available capacity. -/
theorem processRequests_wf (requests : List ResourceRequest) :
    ∀ pool : List ServerResource, WellFormedPool pool →
      ((processRequests requests pool).2.map ServerResource.hostname =
          pool.map ServerResource.hostname) ∧
      WellFormedPool (processRequests requests pool).2 ∧
      (∀ h, poolAvail (processRequests requests pool).2 h +
          allocListAmount (processRequests requests pool).1 h = poolAvail pool h) := by
  induction requests with
  | nil =>
    intro pool hwf
    exact ⟨rfl, hwf, fun h => by simp [processRequests, allocListAmount_nil]⟩
  | cons r rs ih =>
    intro pool hwf
    obtain ⟨KA, WA, CA⟩ := allocateToModule_wf r pool hwf
    rcases hE : allocateToModule r pool with ⟨o, pool2⟩
    rw [hE] at KA WA CA
    obtain ⟨K, W, C⟩ := ih pool2 WA
    cases o with
    | some a =>
      simp only [processRequests, hE]
      refine ⟨K.trans KA, W, ?_⟩
      intro h
      rw [allocListAmount_cons]
      have hCA := CA h
      have hC := C h
      simp only [allocAmount] at hCA
      linarith
    | none =>
      simp only [processRequests, hE]
      refine ⟨K.trans KA, W, ?_⟩
      intro h
      have hCA := CA h
      have hC := C h
      simp only [allocAmount, add_zero] at hCA
      linarith

theorem posAvail_nil : posAvail [] = 0 := rfl

theorem posAvail_cons (s : ServerResource) (rest : List ServerResource) :
    posAvail (s :: rest) = max 0 s.availableRam + posAvail rest := by
  simp [posAvail]

theorem posAvail_nonneg (pool : List ServerResource) : 0 ≤ posAvail pool := by
  induction pool with
  | nil => simp [posAvail_nil]
  | cons s rest ih =>
    rw [posAvail_cons]
    have : (0:ℚ) ≤ max 0 s.availableRam := le_max_left 0 _
    linarith

theorem posAvail_perm {l1 l2 : List ServerResource} (hp : l1.Perm l2) :
    posAvail l1 = posAvail l2 :=
  List.Perm.sum_eq (hp.map _)

theorem totalAvail_eq_posAvail (pool : List ServerResource)
    (hnn : ∀ s ∈ pool, 0 ≤ s.availableRam) : totalAvail pool = posAvail pool := by
  induction pool with
  | nil => rfl
  | cons s rest ih =>
    have h0 : 0 ≤ s.availableRam := hnn s (List.mem_cons_self s rest)
    have hrest := ih fun t ht => hnn t (List.mem_cons_of_mem s ht)
    rw [posAvail_cons, max_eq_right h0, ← hrest]
    simp [totalAvail]

theorem requestLE_total (a b : ResourceRequest) :
    requestLE a b = true ∨ requestLE b a = true := by
  simp only [requestLE, decide_eq_true_eq]
  exact le_total b.priority a.priority

theorem requestLE_trans (a b c : ResourceRequest) (hab : requestLE a b = true)
    (hbc : requestLE b c = true) : requestLE a c = true := by
  simp only [requestLE, decide_eq_true_eq] at *
  exact le_trans hbc hab

/-- Closed form of the greedy take's total: starting below the target it
takes `min (target - tot) available` until the target is met, so it ends at
`min target (tot + posAvail sorted)`. -/
theorem distribute_formula (target : ℚ) (sorted : List ServerResource) :
    ∀ (pool : List ServerResource) (recs : List (String × ℚ)) (tot : ℚ), tot ≤ target →
      (distributeAllocation target sorted pool recs tot).2.2 =
        min target (tot + posAvail sorted) := by
  induction sorted with
  | nil =>
    intro pool recs tot htot
    rw [distributeAllocation_nil, posAvail_nil]
    show tot = min target (tot + 0)
    rw [add_zero]
    exact (min_eq_right htot).symm
  | cons s rest ih =>
    intro pool recs tot htot
    rw [distributeAllocation_cons]
    have hposrest : 0 ≤ posAvail rest := posAvail_nonneg rest
    have hposcons : 0 ≤ posAvail (s :: rest) := posAvail_nonneg (s :: rest)
    by_cases h1 : target ≤ tot
    · rw [if_pos h1]
      have htt : tot = target := le_antisymm htot h1
      show tot = min target (tot + posAvail (s :: rest))
      rw [htt]
      exact (min_eq_left (by linarith)).symm
    · rw [if_neg h1]
      push_neg at h1
      by_cases h2 : s.availableRam ≤ 0
      · rw [if_pos h2, ih pool recs tot htot, posAvail_cons, max_eq_left h2, zero_add]
      · rw [if_neg h2]
        push_neg at h2
        have hmin : 0 < min (target - tot) s.availableRam := lt_min (by linarith) h2
        rw [if_pos hmin]
        have htot2 : tot + min (target - tot) s.availableRam ≤ target := by
          have := min_le_left (target - tot) s.availableRam
          linarith
        rw [ih _ _ _ htot2, posAvail_cons, max_eq_right (le_of_lt h2)]
        rcases le_total s.availableRam (target - tot) with hcase | hcase
        · rw [min_eq_right hcase]
          congr 1
          ring
        · rw [min_eq_left hcase]
          rw [min_eq_left (by linarith), min_eq_left (by linarith)]

/-- When the pool can supply a request's full `maxRam` (and the request is
sane, `0 ≤ minRam ≤ maxRam`), `allocateToModule` grants exactly `maxRam`. -/
theorem allocateToModule_full (request : ResourceRequest) (pool : List ServerResource)
    (hwf : WellFormedPool pool) (hmin0 : 0 ≤ request.minRam)
    (hmm : request.minRam ≤ request.maxRam)
    (hsup : request.maxRam ≤ totalAvail pool) :
    ∃ a, (allocateToModule request pool).1 = some a ∧
      a.allocatedRam = request.maxRam := by
  have htot : (distributeAllocation request.maxRam (sortedPoolFor request pool)
      pool [] 0).2.2 = request.maxRam := by
    rw [distribute_formula _ _ _ _ _ (by linarith : (0:ℚ) ≤ request.maxRam), zero_add]
    apply min_eq_left
    rw [posAvail_perm (sortedPoolFor_perm request pool),
      ← totalAvail_eq_posAvail pool hwf.2]
    exact hsup
  rw [allocateToModule_eq, if_neg (not_lt.mpr (by rw [htot]; exact hmm))]
  exact ⟨_, rfl, by simpa using htot⟩

theorem processRequests_append (l1 l2 : List ResourceRequest) :
    ∀ pool : List ServerResource,
      processRequests (l1 ++ l2) pool =
        ((processRequests l1 pool).1 ++
            (processRequests l2 (processRequests l1 pool).2).1,
          (processRequests l2 (processRequests l1 pool).2).2) := by
  induction l1 with
  | nil => intro pool; simp [processRequests]
  | cons r rs ih =>
    intro pool
    rcases hE : allocateToModule r pool with ⟨o, pool2⟩
    cases o with
    | some a => simp only [List.cons_append, List.append_eq, processRequests, hE, ih]
    | none => simp only [List.cons_append, List.append_eq, processRequests, hE, ih]

theorem preferredLE_total (prefs : List String) (a b : ServerResource) :
    preferredLE prefs a b = true ∨ preferredLE prefs b a = true := by
  unfold preferredLE
  cases hA : prefs.contains a.hostname <;> cases hB : prefs.contains b.hostname <;>
    cases hHa : a.isHome <;> cases hHb : b.isHome <;>
      simp [hA, hB, hHa, hHb] <;> exact le_total _ _

theorem preferredLE_trans (prefs : List String) (a b c : ServerResource)
    (hab : preferredLE prefs a b = true) (hbc : preferredLE prefs b c = true) :
    preferredLE prefs a c = true := by
  unfold preferredLE at *
  cases hA : prefs.contains a.hostname <;> cases hB : prefs.contains b.hostname <;>
    cases hC : prefs.contains c.hostname <;>
    cases hHa : a.isHome <;> cases hHb : b.isHome <;> cases hHc : c.isHome <;>
      simp_all <;> linarith

theorem keys_map_entry {α : Type} (recs : List (String × α)) (g : String × α → String × α)
    (hg : ∀ p, (g p).1 = p.1) :
    (recs.map g).map Prod.fst = recs.map Prod.fst := by
  rw [List.map_map]
  exact List.map_congr_left fun p _ => hg p

theorem recordSet_keys_nodup {α : Type} (recs : List (String × α)) (k : String) (v : α)
    (h : (recs.map Prod.fst).Nodup) :
    ((recordSet recs k v).map Prod.fst).Nodup := by
  unfold recordSet
  by_cases hmem : (recs.any fun p => p.1 == k) = true
  · rw [if_pos hmem]
    have heq : (recs.map fun p => if p.1 == k then (k, v) else p).map Prod.fst =
        recs.map Prod.fst := by
      apply keys_map_entry
      intro p
      by_cases hp : p.1 = k
      · simp [hp]
      · simp [hp]
    rw [heq]
    exact h
  · rw [if_neg hmem, List.map_append]
    refine List.Nodup.append h (List.nodup_singleton k) ?_
    intro x hx hk
    have hxk : x = k := by simpa using hk
    obtain ⟨p, hp, hpk⟩ := List.mem_map.mp hx
    exact hmem (List.any_eq_true.mpr ⟨p, hp, by simp [hpk, hxk]⟩)

theorem recordSet_mem_keys {α : Type} (recs : List (String × α)) (k : String) (v : α) :
    k ∈ (recordSet recs k v).map Prod.fst := by
  unfold recordSet
  by_cases hmem : (recs.any fun p => p.1 == k) = true
  · rw [if_pos hmem]
    obtain ⟨p, hp, hpk⟩ := List.any_eq_true.mp hmem
    have hpk2 : p.1 = k := by simpa using hpk
    refine List.mem_map.mpr ⟨if p.1 == k then (k, v) else p, ?_, ?_⟩
    · exact List.mem_map_of_mem _ hp
    · simp [hpk2]
  · rw [if_neg hmem, List.map_append]
    simp

theorem updateRegistered_keys (registry : ModuleRegistry) (name : String) (now : ℕ)
    (f : RegisteredModule → RegisteredModule) :
    registryKeys (updateRegistered registry name now f) = registryKeys registry := by
  unfold updateRegistered registryKeys
  by_cases hmem : (registry.modules.any fun p => p.1 == name) = true
  · rw [if_pos hmem]
    apply keys_map_entry
    intro p
    by_cases hp : p.1 = name
    · simp [hp]
    · simp [hp]
  · rw [if_neg hmem]

theorem applyOp_keys_nodup (registry : ModuleRegistry) (op : RegistryOp)
    (h : (registryKeys registry).Nodup) :
    (registryKeys (applyOp registry op)).Nodup := by
  cases op with
  | register n sp c pr cp st now => exact recordSet_keys_nodup _ _ _ h
  | unregister n now =>
    show (registryKeys (unregisterModule registry n now)).Nodup
    unfold unregisterModule
    by_cases hmem : (registry.modules.any fun p => p.1 == n) = true
    · rw [if_pos hmem]
      exact ((List.filter_sublist _).map Prod.fst).nodup h
    · rw [if_neg hmem]; exact h
  | setStatus n st now =>
    show (registryKeys (updateModuleStatus registry n st now)).Nodup
    unfold updateModuleStatus
    rw [updateRegistered_keys]
    exact h
  | setPID n pid now =>
    show (registryKeys (updateModulePID registry n pid now)).Nodup
    unfold updateModulePID
    rw [updateRegistered_keys]
    exact h
  | setAllocation n rq al ac now =>
    show (registryKeys (updateModuleAllocation registry n rq al ac now)).Nodup
    unfold updateModuleAllocation
    rw [updateRegistered_keys]
    exact h
  | setPorts n cp st now =>
    show (registryKeys (updateModulePorts registry n cp st now)).Nodup
    unfold updateModulePorts
    rw [updateRegistered_keys]
    exact h
  | clear now => simp [applyOp, clearRegistry, registryKeys]

theorem applyOps_keys_nodup (ops : List RegistryOp) :
    ∀ registry : ModuleRegistry, (registryKeys registry).Nodup →
      (registryKeys (applyOps registry ops)).Nodup := by
  induction ops with
  | nil => intro registry h; exact h
  | cons op rest ih =>
    intro registry h
    exact ih (applyOp registry op) (applyOp_keys_nodup registry op h)

/-! ### Claim theorems -/

/-- Claim C3: for every request and pool, the allocation a request yields
(if any) is never strictly between `0` and `minRam`: the result is either
absent, or its total is `0`, or its total lies in `[minRam, maxRam]`. -/
theorem allocateToModule_floor_or_nothing (request : ResourceRequest)
    (pool : List ServerResource) :
    (allocateToModule request pool).1 = none ∨
    ∃ a, (allocateToModule request pool).1 = some a ∧
      (a.allocatedRam = 0 ∨
        (request.minRam ≤ a.allocatedRam ∧ a.allocatedRam ≤ request.maxRam)) := by
  rw [allocateToModule_eq]
  by_cases hmin :
      (distributeAllocation request.maxRam (sortedPoolFor request pool) pool [] 0).2.2 <
        request.minRam
  · left; rw [if_pos hmin]
  · right
    rw [if_neg hmin]
    push_neg at hmin
    refine ⟨_, rfl, ?_⟩
    rcases le_or_lt request.maxRam 0 with hmax | hmax
    · exact Or.inl (distribute_target_nonpos _ _ _ _ hmax)
    · exact Or.inr ⟨hmin, distribute_le_target _ _ _ _ _ (le_of_lt hmax)⟩

/-- Claim C1: `allocateResources` processes requests in strictly descending
priority order against one shared mutated pool: writing the stable sort of
the requests as `hi ++ r :: lo`, when priorities are distinct every request
in `hi` has strictly higher priority than `r` and every request in `lo`
strictly lower; the pool `r` is served from is exactly the pool left after
the higher-priority prefix `hi` consumed its grants; and whenever that
remaining pool can still supply `r`'s full `maxRam`, `r`'s allocation in
the overall result is exactly `maxRam`. -/
theorem allocateResources_priority_descending
    (pool : List ServerResource) (requests : List ResourceRequest)
    (hi lo : List ResourceRequest) (r : ResourceRequest)
    (hwf : WellFormedPool pool)
    (hdist : (requests.map ResourceRequest.priority).Pairwise (· ≠ ·))
    (hsplit : List.insertionSort (fun a b => requestLE a b = true) requests =
      hi ++ r :: lo)
    (hmin0 : 0 ≤ r.minRam) (hmm : r.minRam ≤ r.maxRam)
    (hsup : r.maxRam ≤ totalAvail (processRequests hi pool).2) :
    (∀ x ∈ hi, r.priority < x.priority) ∧
    (∀ y ∈ lo, y.priority < r.priority) ∧
    ∃ a, (allocateToModule r (processRequests hi pool).2).1 = some a ∧
      a.allocatedRam = r.maxRam ∧ a ∈ allocateResources pool requests := by
  have hsorted : List.Sorted (fun a b => requestLE a b = true)
      (List.insertionSort (fun a b => requestLE a b = true) requests) := by
    haveI : IsTotal ResourceRequest (fun a b => requestLE a b = true) :=
      ⟨requestLE_total⟩
    haveI : IsTrans ResourceRequest (fun a b => requestLE a b = true) :=
      ⟨requestLE_trans⟩
    exact List.sorted_insertionSort _ _
  have hperm : (List.insertionSort (fun a b => requestLE a b = true) requests).Perm
      requests := List.perm_insertionSort _ _
  have hdistS : ((List.insertionSort (fun a b => requestLE a b = true) requests).map
      ResourceRequest.priority).Pairwise (· ≠ ·) :=
    (List.Perm.pairwise_iff (fun h => Ne.symm h) (hperm.map _)).mpr hdist
  rw [hsplit] at hsorted hdistS
  have hdistL : (hi ++ r :: lo).Pairwise
      (fun a b => a.priority ≠ b.priority) := List.pairwise_map.mp hdistS
  obtain ⟨Shi, Srl, Scross⟩ := List.pairwise_append.mp hsorted
  obtain ⟨Nhi, Nrl, Ncross⟩ := List.pairwise_append.mp hdistL
  have hc1 : ∀ x ∈ hi, r.priority < x.priority := by
    intro x hx
    have hle : requestLE x r = true := Scross x hx r (List.mem_cons_self r lo)
    have hne : x.priority ≠ r.priority := Ncross x hx r (List.mem_cons_self r lo)
    simp only [requestLE, decide_eq_true_eq] at hle
    exact lt_of_le_of_ne hle hne.symm
  have hc2 : ∀ y ∈ lo, y.priority < r.priority := by
    intro y hy
    have hle : requestLE r y = true := (List.pairwise_cons.mp Srl).1 y hy
    have hne : r.priority ≠ y.priority := (List.pairwise_cons.mp Nrl).1 y hy
    simp only [requestLE, decide_eq_true_eq] at hle
    exact lt_of_le_of_ne hle hne.symm
  obtain ⟨K1, W1, C1a⟩ := processRequests_wf hi pool hwf
  obtain ⟨a, ha, haRam⟩ :=
    allocateToModule_full r (processRequests hi pool).2 W1 hmin0 hmm hsup
  refine ⟨hc1, hc2, a, ha, haRam, ?_⟩
  have hAR : allocateResources pool requests =
      (processRequests (hi ++ r :: lo) pool).1 := by
    show optimizeAllocation (processRequests (List.insertionSort
      (fun a b => requestLE a b = true) requests) pool).1 = _
    rw [hsplit]
    rfl
  rw [hAR, processRequests_append]
  show a ∈ (processRequests hi pool).1 ++
    (processRequests (r :: lo) (processRequests hi pool).2).1
  refine List.mem_append_right _ ?_
  rcases hEE : allocateToModule r (processRequests hi pool).2 with ⟨o, P2⟩
  rw [hEE] at ha
  have ho : o = some a := ha
  subst ho
  simp only [processRequests, hEE]
  exact List.mem_cons_self a _

/-- Witness for C1 at a concrete input: requests with priorities `2 > 1`
against a single 10-capacity server; the higher-priority request takes 6,
the remaining pool (4 available) can still supply the lower-priority
request's `maxRam = 4`, which is then granted in full. -/
theorem allocateResources_priority_descending_witness :
    WellFormedPool [⟨"A", 16, 0, 10, false, false⟩] ∧
    (([⟨"m1", 2, 1, 6, none⟩, ⟨"m2", 1, 1, 4, none⟩] :
        List ResourceRequest).map ResourceRequest.priority).Pairwise (· ≠ ·) ∧
    List.insertionSort (fun a b => requestLE a b = true)
        [⟨"m1", 2, 1, 6, none⟩, ⟨"m2", 1, 1, 4, none⟩] =
      [⟨"m1", 2, 1, 6, none⟩] ++ (⟨"m2", 1, 1, 4, none⟩ : ResourceRequest) :: [] ∧
    (0:ℚ) ≤ (⟨"m2", 1, 1, 4, none⟩ : ResourceRequest).minRam ∧
    (⟨"m2", 1, 1, 4, none⟩ : ResourceRequest).minRam ≤
      (⟨"m2", 1, 1, 4, none⟩ : ResourceRequest).maxRam ∧
    (⟨"m2", 1, 1, 4, none⟩ : ResourceRequest).maxRam ≤
      totalAvail (processRequests [⟨"m1", 2, 1, 6, none⟩]
        [⟨"A", 16, 0, 10, false, false⟩]).2 ∧
    ((∀ x ∈ [(⟨"m1", 2, 1, 6, none⟩ : ResourceRequest)],
        (⟨"m2", 1, 1, 4, none⟩ : ResourceRequest).priority < x.priority) ∧
      (∀ y ∈ ([] : List ResourceRequest),
        y.priority < (⟨"m2", 1, 1, 4, none⟩ : ResourceRequest).priority) ∧
      ∃ a, (allocateToModule ⟨"m2", 1, 1, 4, none⟩
          (processRequests [⟨"m1", 2, 1, 6, none⟩]
            [⟨"A", 16, 0, 10, false, false⟩]).2).1 = some a ∧
        a.allocatedRam = (⟨"m2", 1, 1, 4, none⟩ : ResourceRequest).maxRam ∧
        a ∈ allocateResources [⟨"A", 16, 0, 10, false, false⟩]
          [⟨"m1", 2, 1, 6, none⟩, ⟨"m2", 1, 1, 4, none⟩]) := by
  have h1 : WellFormedPool [⟨"A", 16, 0, 10, false, false⟩] :=
    ⟨by decide, by intro s hs; rw [List.mem_singleton] at hs; rw [hs]; norm_num⟩
  have h2 : (([⟨"m1", 2, 1, 6, none⟩, ⟨"m2", 1, 1, 4, none⟩] :
      List ResourceRequest).map ResourceRequest.priority).Pairwise (· ≠ ·) := by
    decide
  have h3 : List.insertionSort (fun a b => requestLE a b = true)
      [⟨"m1", 2, 1, 6, none⟩, ⟨"m2", 1, 1, 4, none⟩] =
      [⟨"m1", 2, 1, 6, none⟩] ++ (⟨"m2", 1, 1, 4, none⟩ : ResourceRequest) :: [] := by
    decide
  have h4 : (0:ℚ) ≤ (⟨"m2", 1, 1, 4, none⟩ : ResourceRequest).minRam := by decide
  have h5 : (⟨"m2", 1, 1, 4, none⟩ : ResourceRequest).minRam ≤
      (⟨"m2", 1, 1, 4, none⟩ : ResourceRequest).maxRam := by decide
  have h6 : (⟨"m2", 1, 1, 4, none⟩ : ResourceRequest).maxRam ≤
      totalAvail (processRequests [⟨"m1", 2, 1, 6, none⟩]
        [⟨"A", 16, 0, 10, false, false⟩]).2 := by
    norm_num [processRequests, allocateToModule, sortedPoolFor, distributeAllocation,
      adjustAvail, recordSet, totalAvail, defaultLE, List.insertionSort,
      List.orderedInsert]
  exact ⟨h1, h2, h3, h4, h5, h6,
    allocateResources_priority_descending _ _ _ _ _ h1 h2 h3 h4 h5 h6⟩

/-- Claim C2: no over-commitment — for any well-formed pool (distinct
hostnames, non-negative availability) and any requests, the total amount
the returned allocations record for a server never exceeds that server's
`availableRam` in the input pool. -/
theorem allocateResources_no_overcommit (pool : List ServerResource)
    (requests : List ResourceRequest) (hwf : WellFormedPool pool) (h : String) :
    allocListAmount (allocateResources pool requests) h ≤ poolAvail pool h := by
  obtain ⟨K, W, C⟩ := processRequests_wf
    (List.insertionSort (fun a b => requestLE a b = true) requests) pool hwf
  have hC := C h
  have hnn : 0 ≤ poolAvail
      (processRequests (List.insertionSort (fun a b => requestLE a b = true) requests)
        pool).2 h :=
    poolAvail_nonneg _ W.2 h
  have heq : allocateResources pool requests =
      (processRequests (List.insertionSort (fun a b => requestLE a b = true) requests)
        pool).1 := rfl
  rw [heq]
  linarith

/-- Witness for C2 at a concrete input. -/
theorem allocateResources_no_overcommit_witness :
    WellFormedPool [⟨"n1", 10, 0, 10, false, false⟩] ∧
    allocListAmount
        (allocateResources [⟨"n1", 10, 0, 10, false, false⟩] [⟨"m", 1, 2, 5, none⟩])
        "n1" ≤
      poolAvail [⟨"n1", 10, 0, 10, false, false⟩] "n1" :=
  ⟨⟨by decide, by intro s hs; rw [List.mem_singleton] at hs; rw [hs]; norm_num⟩,
    allocateResources_no_overcommit _ _
      ⟨by decide, by intro s hs; rw [List.mem_singleton] at hs; rw [hs]; norm_num⟩ "n1"⟩

/-- Claim C4: when a request cannot meet its `minRam` floor the takes are
rolled back: for pool `[{n1, avail=10}]` and request `{min=20, max=50}` the
call yields no allocation, `allocateResources` returns the empty list, and
`n1`'s `availableRam` in the working pool is restored to `10` (the working
pool after the call equals the input pool). -/
theorem allocateToModule_rollback_scenario :
    allocateToModule ⟨"m", 1, 20, 50, none⟩ [⟨"n1", 10, 0, 10, false, false⟩] =
      (none, [⟨"n1", 10, 0, 10, false, false⟩]) ∧
    allocateResources [⟨"n1", 10, 0, 10, false, false⟩] [⟨"m", 1, 20, 50, none⟩] = [] := by
  constructor
  · norm_num [allocateToModule, sortedPoolFor, distributeAllocation, adjustAvail,
      recordSet, List.insertionSort, List.orderedInsert]
  · norm_num [allocateResources, processRequests, optimizeAllocation, allocateToModule,
      sortedPoolFor, distributeAllocation, adjustAvail, recordSet, requestLE,
      List.insertionSort, List.orderedInsert]

/-- Claim C5: with no `preferredServers`, the pool is ordered home-last and
otherwise available-RAM-descending, and the greedy take yields, for pool
`[{home, avail=100}, {n1, avail=50}]` and request
`{priority=10, min=40, max=120}`, the allocation `{n1: 50, home: 70}` with
total `120`. -/
theorem allocateToModule_default_order_scenario :
    sortedPoolFor ⟨"m1", 10, 40, 120, none⟩
        [⟨"home", 128, 0, 100, true, false⟩, ⟨"n1", 64, 0, 50, false, false⟩] =
      [⟨"n1", 64, 0, 50, false, false⟩, ⟨"home", 128, 0, 100, true, false⟩] ∧
    allocateResources
        [⟨"home", 128, 0, 100, true, false⟩, ⟨"n1", 64, 0, 50, false, false⟩]
        [⟨"m1", 10, 40, 120, none⟩] =
      [⟨"m1", 120, [("n1", 50), ("home", 70)]⟩] := by
  constructor
  · norm_num [sortedPoolFor, defaultLE, List.insertionSort, List.orderedInsert]
  · norm_num [allocateResources, processRequests, optimizeAllocation, allocateToModule,
      sortedPoolFor, distributeAllocation, adjustAvail, recordSet, requestLE, defaultLE,
      List.insertionSort, List.orderedInsert]
    decide

/-- Claim C6 counterexample: with preferred servers `["a", "b"]` and working
pool `[{a, avail=5}, {b, avail=10}]` (both preferred, both non-home), the
source comparator re-sorts the preferred group by available RAM descending,
producing `[b, a]` rather than the pool-relative order `[a, b]` that the
claim predicts. -/
theorem sortedPoolFor_breaks_pool_order :
    sortedPoolFor ⟨"m", 1, 0, 15, some ["a", "b"]⟩
        [⟨"a", 16, 0, 5, false, false⟩, ⟨"b", 16, 0, 10, false, false⟩] =
      [⟨"b", 16, 0, 10, false, false⟩, ⟨"a", 16, 0, 5, false, false⟩] ∧
    specPreferredOrdering ["a", "b"]
        [⟨"a", 16, 0, 5, false, false⟩, ⟨"b", 16, 0, 10, false, false⟩] =
      [⟨"a", 16, 0, 5, false, false⟩, ⟨"b", 16, 0, 10, false, false⟩] ∧
    sortedPoolFor ⟨"m", 1, 0, 15, some ["a", "b"]⟩
        [⟨"a", 16, 0, 5, false, false⟩, ⟨"b", 16, 0, 10, false, false⟩] ≠
      specPreferredOrdering ["a", "b"]
        [⟨"a", 16, 0, 5, false, false⟩, ⟨"b", 16, 0, 10, false, false⟩] := by
  have h1 : sortedPoolFor ⟨"m", 1, 0, 15, some ["a", "b"]⟩
      [⟨"a", 16, 0, 5, false, false⟩, ⟨"b", 16, 0, 10, false, false⟩] =
      [⟨"b", 16, 0, 10, false, false⟩, ⟨"a", 16, 0, 5, false, false⟩] := by
    norm_num [sortedPoolFor, preferredLE, List.insertionSort, List.orderedInsert]
  have h2 : specPreferredOrdering ["a", "b"]
      [⟨"a", 16, 0, 5, false, false⟩, ⟨"b", 16, 0, 10, false, false⟩] =
      [⟨"a", 16, 0, 5, false, false⟩, ⟨"b", 16, 0, 10, false, false⟩] := by decide
  refine ⟨h1, h2, ?_⟩
  rw [h1, h2]
  decide

/-- Claim C6 (amended): with a non-empty `preferredServers` list the node
ordering is a permutation of the working pool that is sorted by the
preferred-case comparator: all preferred servers first, and within the
preferred and the non-preferred group non-home servers before home and
then available RAM descending (not the pool's relative order). -/
theorem sortedPoolFor_preferred_first (request : ResourceRequest)
    (pool : List ServerResource) (prefs : List String)
    (hp : request.preferredServers = some prefs) (hne : 0 < prefs.length) :
    (sortedPoolFor request pool).Perm pool ∧
    List.Pairwise (fun a b => preferredLE prefs a b = true)
      (sortedPoolFor request pool) := by
  refine ⟨sortedPoolFor_perm request pool, ?_⟩
  have heq : sortedPoolFor request pool =
      List.insertionSort (fun a b => preferredLE prefs a b = true) pool := by
    simp only [sortedPoolFor, hp, if_pos hne]
  rw [heq]
  haveI : IsTotal ServerResource (fun a b => preferredLE prefs a b = true) :=
    ⟨preferredLE_total prefs⟩
  haveI : IsTrans ServerResource (fun a b => preferredLE prefs a b = true) :=
    ⟨fun a b c hab hbc => preferredLE_trans prefs a b c hab hbc⟩
  exact List.sorted_insertionSort _ _

/-- Witness for the amended C6 at a concrete input. -/
theorem sortedPoolFor_preferred_first_witness :
    (⟨"m", 1, 0, 15, some ["a", "b"]⟩ : ResourceRequest).preferredServers =
      some ["a", "b"] ∧
    0 < (["a", "b"] : List String).length ∧
    ((sortedPoolFor ⟨"m", 1, 0, 15, some ["a", "b"]⟩
        [⟨"a", 16, 0, 5, false, false⟩, ⟨"b", 16, 0, 10, false, false⟩]).Perm
      [⟨"a", 16, 0, 5, false, false⟩, ⟨"b", 16, 0, 10, false, false⟩] ∧
    List.Pairwise (fun a b => preferredLE ["a", "b"] a b = true)
      (sortedPoolFor ⟨"m", 1, 0, 15, some ["a", "b"]⟩
        [⟨"a", 16, 0, 5, false, false⟩, ⟨"b", 16, 0, 10, false, false⟩])) :=
  ⟨rfl, by decide,
    sortedPoolFor_preferred_first ⟨"m", 1, 0, 15, some ["a", "b"]⟩
      [⟨"a", 16, 0, 5, false, false⟩, ⟨"b", 16, 0, 10, false, false⟩]
      ["a", "b"] rfl (by decide)⟩

/-- Claim C7: `registerModule` is an idempotent upsert keyed by name —
registering the same name twice leaves exactly one record for that name,
holding the second call's values and starting in the `stopped` state; and
every sequence of registry operations preserves the no-duplicate-names
invariant. -/
theorem registerModule_idempotent_upsert (registry : ModuleRegistry)
    (hnodup : (registryKeys registry).Nodup) (ops : List RegistryOp)
    (name scriptPath1 scriptPath2 : String) (config1 config2 : ModuleConfig)
    (priority1 priority2 : ℚ) (cp1 sp1 t1 cp2 sp2 t2 : ℕ) :
    (registryKeys (applyOps registry ops)).Nodup ∧
    (registryKeys (registerModule
        (registerModule registry name scriptPath1 config1 priority1 cp1 sp1 t1)
        name scriptPath2 config2 priority2 cp2 sp2 t2)).count name = 1 ∧
    lookupRecord (registerModule
        (registerModule registry name scriptPath1 config1 priority1 cp1 sp1 t1)
        name scriptPath2 config2 priority2 cp2 sp2 t2).modules name =
      some (mkRegisteredModule name scriptPath2 config2 priority2 cp2 sp2 t2) ∧
    (mkRegisteredModule name scriptPath2 config2 priority2 cp2 sp2 t2).status =
      ModuleLifecycleState.stopped := by
  have hn1 : (registryKeys (registerModule registry name scriptPath1 config1
      priority1 cp1 sp1 t1)).Nodup := recordSet_keys_nodup _ _ _ hnodup
  have hn2 : (registryKeys (registerModule
      (registerModule registry name scriptPath1 config1 priority1 cp1 sp1 t1)
      name scriptPath2 config2 priority2 cp2 sp2 t2)).Nodup :=
    recordSet_keys_nodup _ _ _ hn1
  have hmem2 : name ∈ registryKeys (registerModule
      (registerModule registry name scriptPath1 config1 priority1 cp1 sp1 t1)
      name scriptPath2 config2 priority2 cp2 sp2 t2) :=
    recordSet_mem_keys _ _ _
  exact ⟨applyOps_keys_nodup ops registry hnodup,
    List.count_eq_one_of_mem hn2 hmem2,
    lookupRecord_recordSet _ _ _, rfl⟩

/-- Witness for C7 at a concrete input (the empty registry, one
`setStatus` op, and a double registration of the same name). -/
theorem registerModule_idempotent_upsert_witness :
    (registryKeys ⟨[], 0⟩).Nodup ∧
    ((registryKeys (applyOps ⟨[], 0⟩ [RegistryOp.setStatus "x"
        ModuleLifecycleState.running 5])).Nodup ∧
      (registryKeys (registerModule
          (registerModule ⟨[], 0⟩ "m" "/a.ts" ⟨some 4⟩ 1 1 2 3)
          "m" "/b.ts" ⟨none⟩ 2 4 5 6)).count "m" = 1 ∧
      lookupRecord (registerModule
          (registerModule ⟨[], 0⟩ "m" "/a.ts" ⟨some 4⟩ 1 1 2 3)
          "m" "/b.ts" ⟨none⟩ 2 4 5 6).modules "m" =
        some (mkRegisteredModule "m" "/b.ts" ⟨none⟩ 2 4 5 6) ∧
      (mkRegisteredModule "m" "/b.ts" ⟨none⟩ 2 4 5 6).status =
        ModuleLifecycleState.stopped) :=
  ⟨by decide,
    registerModule_idempotent_upsert ⟨[], 0⟩ (by decide)
      [RegistryOp.setStatus "x" ModuleLifecycleState.running 5]
      "m" "/a.ts" "/b.ts" ⟨some 4⟩ ⟨none⟩ 1 2 1 2 3 4 5 6⟩

/-- Claim C8: change detection is the set difference against the previous
snapshot — previous `{A,B}` rooted `{A}`, current `{A,B,C}` rooted `{A,B}`
reports `newServers = [C]` and `newlyRooted = [B]`; with no previous
snapshot, every current server and every currently rooted server is
reported as new. -/
theorem detectNetworkChanges_diff :
    (detectNetworkChanges
        ⟨["A", "B", "C"], fun h => h == "A" || h == "B", fun _ => false, []⟩
        (some ⟨["A", "B"], ["A"], [], [], 0, 0⟩)).newServers = ["C"] ∧
    (detectNetworkChanges
        ⟨["A", "B", "C"], fun h => h == "A" || h == "B", fun _ => false, []⟩
        (some ⟨["A", "B"], ["A"], [], [], 0, 0⟩)).newlyRooted = ["B"] ∧
    ∀ env : NetEnv, detectNetworkChanges env none =
      ⟨env.servers, env.servers.filter env.hasRoot, env.servers.filter env.isPurchased,
        false, env.servers.length⟩ :=
  ⟨by decide, by decide, fun env => rfl⟩

/-- Claim C9: `sendMessage` clears a full channel before writing, so three
sends into a capacity-1 channel leave exactly the last message pending, and
`hasMessages` is true until the channel is drained. -/
theorem sendMessage_overwrite_on_full :
    (∀ (p : Port) (now : ℕ) (msg : String), portFull p = true → 0 < p.capacity →
      (sendMessage p now msg).queue = [⟨now, msg⟩]) ∧
    (sendMessage (sendMessage (sendMessage ⟨1, []⟩ 1 "m1") 2 "m2") 3 "m3").queue =
      [⟨3, "m3"⟩] ∧
    hasMessages (sendMessage (sendMessage (sendMessage ⟨1, []⟩ 1 "m1") 2 "m2") 3 "m3") =
      true ∧
    hasMessages
      (receiveMessage
        (sendMessage (sendMessage (sendMessage ⟨1, []⟩ 1 "m1") 2 "m2") 3 "m3")).2 =
      false := by
  refine ⟨?_, by decide, by decide, by decide⟩
  intro p now msg hfull hcap
  simp only [sendMessage, hfull, if_true, portClear, portWrite, List.nil_append,
    List.length_cons, List.length_nil]
  rw [if_neg (by omega)]

/-- Witness for C9's general overwrite-on-full statement at a concrete
full channel. -/
theorem sendMessage_overwrite_on_full_witness :
    portFull ⟨1, [⟨0, "x"⟩]⟩ = true ∧ 0 < (Port.mk 1 [⟨0, "x"⟩]).capacity ∧
    (sendMessage ⟨1, [⟨0, "x"⟩]⟩ 5 "y").queue = [⟨5, "y"⟩] :=
  ⟨by decide, by decide,
    sendMessage_overwrite_on_full.1 ⟨1, [⟨0, "x"⟩]⟩ 5 "y" (by decide) (by decide)⟩

/-- Claim C10: re-registering an existing module name replaces the whole
record: after the call the stored record is exactly the freshly built one,
whose status is `stopped`, whose pid is cleared, and whose
`ramAllocation.allocated` and `.actual` are reset to `0` — whatever the
previous record held. -/
theorem registerModule_replaces_record (registry : ModuleRegistry)
    (name scriptPath : String) (config : ModuleConfig) (priority : ℚ)
    (controlPort statusPort now : ℕ) :
    lookupRecord
        (registerModule registry name scriptPath config priority
          controlPort statusPort now).modules name =
      some (mkRegisteredModule name scriptPath config priority
        controlPort statusPort now) ∧
    (mkRegisteredModule name scriptPath config priority
        controlPort statusPort now).status = ModuleLifecycleState.stopped ∧
    (mkRegisteredModule name scriptPath config priority
        controlPort statusPort now).pid = none ∧
    (mkRegisteredModule name scriptPath config priority
        controlPort statusPort now).ramAllocation.allocated = 0 ∧
    (mkRegisteredModule name scriptPath config priority
        controlPort statusPort now).ramAllocation.actual = 0 :=
  ⟨lookupRecord_recordSet registry.modules name _, rfl, rfl, rfl, rfl⟩

end Orchestrator
